import Mathlib

/-!
Verification of the binary search tree implementation in bintree.go
(package main of AppliedGo/bintree).

The Go code mutates nodes in place through pointers.  Because ownership of
nodes is strictly hierarchical (each node is referenced by exactly one
parent), every method is rendered here as a pure function that returns the
new value of the region of the tree it may mutate, together with the Go
`error` result rendered as an `Option String` (`none` for a nil error).
A nil `*Node` pointer is the `Node.nil` constructor.
-/

/-- Decidability of the lexicographic order on strings by way of the
underlying character lists.  Mathlib ships an iterator-based decision
procedure for the same order; this instance decides the very same
proposition but reduces on literals, so that concrete runs of the tree
operations below can be evaluated inside proofs. -/
instance (priority := 2000) decLtStringByList (a b : String) : Decidable (a < b) :=
  decidable_of_iff (a.toList < b.toList) String.lt_iff_toList_lt.symm

namespace Bintree

/-- Node (bintree.go:124-129): a tree vertex holding the search value, the
associated data, a left child and a right child.  `Node.nil` models a nil
`*Node` pointer; `Node.node` models a non-nil node with its four fields. -/
inductive Node where
  | nil : Node
  | node (Value Data : String) (Left Right : Node) : Node
deriving DecidableEq, Repr

/-- Value field accessor.  Go would dereference the pointer; the nil case
(a runtime panic in Go, never exercised below) yields the string zero value. -/
def Node.Value : Node → String
  | .nil => ""
  | .node v _ _ _ => v

/-- Data field accessor, with the same nil convention as `Node.Value`. -/
def Node.Data : Node → String
  | .nil => ""
  | .node _ d _ _ => d

/-- Left child accessor, with the nil pointer rendered as `Node.nil`. -/
def Node.Left : Node → Node
  | .nil => .nil
  | .node _ _ l _ => l

/-- Right child accessor, with the nil pointer rendered as `Node.nil`. -/
def Node.Right : Node → Node
  | .nil => .nil
  | .node _ _ _ r => r

/-- Node.Insert (bintree.go:156-182).  Inserts (value, data) at the position
determined by the search value: equal values are a silent no-op, smaller
values go left, larger values go right, and a new leaf is created where a
child pointer is nil.  Returns the updated subtree that stood at `n`
together with the returned Go error. -/
def Node.Insert : Node → String → String → Node × Option String
  | .nil, _, _ => (.nil, some "Cannot insert a value into a nil tree")
  | .node v d l r, value, data =>
    if value = v then (.node v d l r, none)
    else if value < v then
      if l = Node.nil then (.node v d (.node value data .nil .nil) r, none)
      else
        let res := Node.Insert l value data
        (.node v d res.1 r, res.2)
    else
      if r = Node.nil then (.node v d l (.node value data .nil .nil), none)
      else
        let res := Node.Insert r value data
        (.node v d l res.1, res.2)

/-- Node.Find (bintree.go:196-213).  Returns the data stored with the search
string and `true`, or the empty string and `false` when the string is not
found (reaching a nil node). -/
def Node.Find : Node → String → String × Bool
  | .nil, _ => ("", false)
  | .node v d l r, s =>
    if s = v then (d, true)
    else if s < v then Node.Find l s
    else Node.Find r s

/-- Node.findMax (bintree.go:252-260).  Follows right-child pointers until a
node with no right child is reached and returns that node together with its
immediate parent (the `parent` argument is returned for a nil receiver or a
receiver without a right child). -/
def Node.findMax : Node → Node → Node × Node
  | .nil, parent => (.nil, parent)
  | .node v d l r, parent =>
    if r = Node.nil then (.node v d l r, parent)
    else Node.findMax r (.node v d l r)

/-- Node.replaceNode (bintree.go:264-275).  Rewrites the child pointer of
`parent` that pointed at `n` (left when `n == parent.Left`, right otherwise)
to point at `replacement`; returns the updated parent and the Go error.
Go compares pointers; on the trees reachable through the API, where sibling
subtrees are never identical, pointer equality of `n` with `parent.Left`
coincides with the structural equality used here.  The source dereferences
`parent` unconditionally, so a nil parent is a runtime panic in Go (excluded
by the documented contract of the function); that case is rendered as
returning the parent unchanged and is never relied upon below. -/
def Node.replaceNode (n parent replacement : Node) : Node × Option String :=
  match n with
  | .nil => (parent, some "replaceNode() not allowed on a nil node")
  | _ =>
    match parent with
    | .nil => (.nil, none)
    | .node pv pd pl pr =>
      if n = pl then (.node pv pd replacement pr, none)
      else (.node pv pd pl replacement, none)

/-- Net effect, on the subtree it is applied to, of the deletion of its
rightmost node in Node.Delete (bintree.go:310-319): `findMax` locates the
node at the end of the right spine, and the recursive
`replacement.Delete(replacement.Value, replParent)` then removes that node
in place.  Since the located node has no right child, that recursive call
always takes the zero- or one-child branch and rewrites the child pointer of
`replParent` that pointed at the node to the node's left child.  Rendered
functionally: rebuild the right spine, replacing its last node by that
node's left child. -/
def Node.removeMax : Node → Node
  | .nil => .nil
  | .node v d l r =>
    if r = Node.nil then l
    else .node v d l (Node.removeMax r)

/-- Node.Delete (bintree.go:281-321).  Searches for the node holding `s`;
reaching a nil node is an error.  A found leaf is detached, a found node
with one child is replaced by that child, and a found node with two children
receives the Value and Data of the maximum node of its left subtree
(located by `findMax`) after which that maximum node is removed from its
original location by the recursive delete rendered by `removeMax`.
Returns the updated subtree that stood at `n` together with the Go error:
on success the caller's child pointer to `n` holds the returned subtree,
on an error nothing was mutated. -/
def Node.Delete : Node → String → Node × Option String
  | .nil, _ => (.nil, some "Value to be deleted does not exist in the tree")
  | .node v d l r, s =>
    if s < v then
      let res := Node.Delete l s
      (.node v d res.1 r, res.2)
    else if v < s then
      let res := Node.Delete r s
      (.node v d l res.1, res.2)
    else
      if l = Node.nil ∧ r = Node.nil then (.nil, none)
      else if l = Node.nil then (r, none)
      else if r = Node.nil then (l, none)
      else
        let repl := (Node.findMax l (.node v d l r)).1
        (.node repl.Value repl.Data (Node.removeMax l) r, none)

/-- Tree (bintree.go:335-337): a wrapper holding the root node pointer. -/
structure Tree where
  Root : Node
deriving DecidableEq, Repr

/-- Tree.Insert (bintree.go:340-348): creates the root when the tree is
empty, otherwise delegates to Node.Insert. -/
def Tree.Insert (t : Tree) (value data : String) : Tree × Option String :=
  match t.Root with
  | .nil => (⟨.node value data .nil .nil⟩, none)
  | .node v d l r =>
    let res := Node.Insert (.node v d l r) value data
    (⟨res.1⟩, res.2)

/-- Tree.Find (bintree.go:351-356): not-found on an empty tree, otherwise
delegates to Node.Find. -/
def Tree.Find (t : Tree) (s : String) : String × Bool :=
  match t.Root with
  | .nil => ("", false)
  | .node v d l r => Node.Find (.node v d l r) s

/-- Tree.Delete (bintree.go:360-380).  An empty tree is an error.  Otherwise
the code builds fakeParent = &Node{Right: root}, runs root.Delete(s,
fakeParent), and afterwards sets t.Root to nil only when fakeParent.Right
became nil.  Value-level rendering of the pointer behaviour: after a
successful call, fakeParent.Right equals the subtree `res.1` returned by
`Node.Delete`, while the node t.Root keeps pointing at is unchanged exactly
when the root itself was spliced out of fakeParent — that is, when the root
matched `s` and had at most one child, in which case replaceNode rewrote
fakeParent only and the root node's own fields were never touched.  In every
other successful case the root node was mutated in place into `res.1`.
On an error nothing was mutated and the error is returned unchanged. -/
def Tree.Delete (t : Tree) (s : String) : Tree × Option String :=
  match t.Root with
  | .nil => (t, some "Cannot delete from an empty tree")
  | .node v d l r =>
    let res := Node.Delete (.node v d l r) s
    match res.2 with
    | some e => (t, some e)
    | none =>
      if res.1 = Node.nil then (⟨Node.nil⟩, none)
      else if s = v ∧ (l = Node.nil ∨ r = Node.nil) then (t, none)
      else (⟨res.1⟩, none)

/-- Tree.Traverse (bintree.go:385-392): left-to-right in-order traversal.
The callback argument is modelled by returning the list of (Value, Data)
pairs of the nodes visited, in visiting order. -/
def Tree.Traverse (t : Tree) (n : Node) : List (String × String) :=
  match n with
  | .nil => []
  | .node v d l r => t.Traverse l ++ (v, d) :: t.Traverse r

/-- In-order list of (Value, Data) pairs of a subtree; the node-level
counterpart of Tree.Traverse, used to state properties of subtrees. -/
def Node.inorder : Node → List (String × String)
  | .nil => []
  | .node v d l r => Node.inorder l ++ (v, d) :: Node.inorder r

/-- Keys of a subtree, in in-order sequence. -/
def Node.keys (n : Node) : List String := n.inorder.map Prod.fst

/-- Ordering invariant of the search tree (spec section 3): every key in the
left subtree of a node is strictly less than the key of the node, every key
in its right subtree strictly greater, recursively. -/
def Node.isBSTb : Node → Bool
  | .nil => true
  | .node v _ l r =>
    l.inorder.all (fun p => decide (p.1 < v)) &&
    r.inorder.all (fun p => decide (v < p.1)) &&
    Node.isBSTb l && Node.isBSTb r

/-- A mutating operation of the public Tree API. -/
inductive Op where
  | insert (value data : String) : Op
  | delete (s : String) : Op
deriving DecidableEq, Repr

/-- Applies one public mutating operation.  The first projection of
Tree.Insert and Tree.Delete is the post-state of the tree, which on an
error equals the pre-state, so failed operations leave the tree unchanged
here exactly as they do in Go. -/
def Tree.applyOp (t : Tree) (op : Op) : Tree :=
  match op with
  | .insert v d => (t.Insert v d).1
  | .delete s => (t.Delete s).1

/-- Runs a sequence of mutating operations left to right. -/
def Tree.runOps (t : Tree) (ops : List Op) : Tree := ops.foldl Tree.applyOp t

/-- The empty tree: a Tree value with a nil root, the state `&Tree{}`
starts from. -/
def emptyTree : Tree := ⟨Node.nil⟩

/-- Builds a tree by inserting the given (value, data) pairs in list order
into an initially empty tree. -/
def buildTree (l : List (String × String)) : Tree :=
  l.foldl (fun t p => (t.Insert p.1 p.2).1) emptyTree

/-! Basic lemmas about traversal and the ordering invariant. -/

theorem Tree.Traverse_eq_inorder (t : Tree) (n : Node) : t.Traverse n = n.inorder := by
  induction n with
  | nil => rfl
  | node v d l r ihl ihr => simp [Tree.Traverse, Node.inorder, ihl, ihr]

theorem Node.inorder_node (v d : String) (l r : Node) :
    (Node.node v d l r).inorder = l.inorder ++ (v, d) :: r.inorder := rfl

theorem Node.keys_node (v d : String) (l r : Node) :
    (Node.node v d l r).keys = l.keys ++ v :: r.keys := by
  simp [Node.keys, Node.inorder]

theorem Node.mem_keys {n : Node} {s : String} :
    s ∈ n.keys ↔ ∃ p ∈ n.inorder, p.1 = s := by
  simp [Node.keys, List.mem_map, eq_comm]

theorem Node.isBSTb_node {v d : String} {l r : Node} :
    (Node.node v d l r).isBSTb = true ↔
      (∀ p ∈ l.inorder, p.1 < v) ∧ (∀ p ∈ r.inorder, v < p.1) ∧
      l.isBSTb = true ∧ r.isBSTb = true := by
  simp [Node.isBSTb, List.all_eq_true, and_assoc]

theorem Node.pairwise_inorder {n : Node} (h : n.isBSTb = true) :
    n.inorder.Pairwise (fun p q => p.1 < q.1) := by
  induction n with
  | nil => simp [Node.inorder]
  | node v d l r ihl ihr =>
    rw [Node.isBSTb_node] at h
    obtain ⟨hl, hr, hbl, hbr⟩ := h
    rw [Node.inorder_node]
    refine List.pairwise_append.mpr ⟨ihl hbl, List.pairwise_cons.mpr ⟨hr, ihr hbr⟩, ?_⟩
    intro a ha b hb
    rcases List.mem_cons.mp hb with rfl | hb
    · exact hl a ha
    · exact lt_trans (hl a ha) (hr b hb)

theorem Node.Find_not_mem {n : Node} {s : String} (h : n.isBSTb = true) (hs : s ∉ n.keys) :
    n.Find s = ("", false) := by
  induction n with
  | nil => rfl
  | node v d l r ihl ihr =>
    rw [Node.isBSTb_node] at h
    rw [Node.keys_node] at hs
    simp only [List.mem_append, List.mem_cons, not_or] at hs
    obtain ⟨hsl, hsv, hsr⟩ := hs
    simp only [Node.Find, if_neg hsv]
    rcases lt_or_gt_of_ne hsv with hlt | hgt
    · rw [if_pos hlt]
      exact ihl h.2.2.1 hsl
    · rw [if_neg (asymm hgt)]
      exact ihr h.2.2.2 hsr

/-! Lemmas about Node.Insert and Tree.Insert. -/

theorem Node.Insert_snd {n : Node} (hn : n ≠ Node.nil) (value data : String) :
    (n.Insert value data).2 = none := by
  induction n with
  | nil => exact absurd rfl hn
  | node v d l r ihl ihr =>
    simp only [Node.Insert]
    split_ifs with h1 h2 h3 h4
    · rfl
    · rfl
    · exact ihl h3
    · rfl
    · exact ihr h4

theorem Node.Insert_mem {n : Node} {value data : String} {p : String × String}
    (hp : p ∈ ((n.Insert value data).1).inorder) : p ∈ n.inorder ∨ p = (value, data) := by
  induction n with
  | nil => simp [Node.Insert, Node.inorder] at hp
  | node v d l r ihl ihr =>
    simp only [Node.Insert] at hp
    split_ifs at hp with h1 h2 h3 h4
    · exact Or.inl hp
    · subst h3
      simp only [Node.inorder_node, Node.inorder, List.nil_append, List.mem_cons,
        List.mem_append] at hp ⊢
      tauto
    · simp only [Node.inorder_node, List.mem_append, List.mem_cons] at hp ⊢
      rcases hp with hp | hp | hp
      · rcases ihl hp with h | h
        · tauto
        · tauto
      · tauto
      · tauto
    · subst h4
      simp only [Node.inorder_node, Node.inorder, List.append_nil, List.mem_cons,
        List.mem_append] at hp ⊢
      tauto
    · simp only [Node.inorder_node, List.mem_append, List.mem_cons] at hp ⊢
      rcases hp with hp | hp | hp
      · tauto
      · tauto
      · rcases ihr hp with h | h
        · tauto
        · tauto

theorem Node.Insert_isBSTb {n : Node} (h : n.isBSTb = true) (value data : String) :
    ((n.Insert value data).1).isBSTb = true := by
  induction n with
  | nil => rfl
  | node v d l r ihl ihr =>
    rw [Node.isBSTb_node] at h
    obtain ⟨hlv, hvr, hbl, hbr⟩ := h
    simp only [Node.Insert]
    split_ifs with h1 h2 h3 h4
    · exact Node.isBSTb_node.mpr ⟨hlv, hvr, hbl, hbr⟩
    · subst h3
      refine Node.isBSTb_node.mpr ⟨?_, hvr, ?_, hbr⟩
      · intro p hp
        simp only [Node.inorder_node, Node.inorder, List.nil_append, List.mem_cons,
          List.not_mem_nil, or_false] at hp
        rcases hp with rfl
        exact h2
      · simp [Node.isBSTb, Node.inorder]
    · refine Node.isBSTb_node.mpr ⟨?_, hvr, ihl hbl, hbr⟩
      intro p hp
      rcases Node.Insert_mem hp with hmem | rfl
      · exact hlv p hmem
      · exact h2
    · subst h4
      refine Node.isBSTb_node.mpr ⟨hlv, ?_, hbl, ?_⟩
      · intro p hp
        simp only [Node.inorder_node, Node.inorder, List.nil_append, List.mem_cons,
          List.not_mem_nil, or_false] at hp
        rcases hp with rfl
        exact lt_of_le_of_ne (not_lt.mp h2) (Ne.symm h1)
      · simp [Node.isBSTb, Node.inorder]
    · refine Node.isBSTb_node.mpr ⟨hlv, ?_, hbl, ihr hbr⟩
      intro p hp
      rcases Node.Insert_mem hp with hmem | rfl
      · exact hvr p hmem
      · exact lt_of_le_of_ne (not_lt.mp h2) (Ne.symm h1)

theorem Node.Insert_noop {n : Node} {value : String} (h : n.isBSTb = true)
    (hv : value ∈ n.keys) (data : String) : n.Insert value data = (n, none) := by
  induction n with
  | nil => simp [Node.keys, Node.inorder] at hv
  | node v d l r ihl ihr =>
    rw [Node.isBSTb_node] at h
    obtain ⟨hlv, hvr, hbl, hbr⟩ := h
    rw [Node.keys_node] at hv
    simp only [List.mem_append, List.mem_cons] at hv
    simp only [Node.Insert]
    rcases hv with hv | hveq | hv
    · have hlt : value < v := by
        obtain ⟨p, hp, hpv⟩ := Node.mem_keys.mp hv
        exact hpv ▸ hlv p hp
      have hlnil : ¬ l = Node.nil := by
        intro h0
        rw [h0] at hv
        simp [Node.keys, Node.inorder] at hv
      rw [if_neg (ne_of_lt hlt), if_pos hlt, if_neg hlnil, ihl hbl hv]
    · rw [if_pos hveq]
    · have hlt : v < value := by
        obtain ⟨p, hp, hpv⟩ := Node.mem_keys.mp hv
        exact hpv ▸ hvr p hp
      have hrnil : ¬ r = Node.nil := by
        intro h0
        rw [h0] at hv
        simp [Node.keys, Node.inorder] at hv
      rw [if_neg (ne_of_gt hlt), if_neg (asymm hlt), if_neg hrnil, ihr hbr hv]

theorem Node.Insert_perm {n : Node} (hn : n ≠ Node.nil) {value : String}
    (hv : value ∉ n.keys) (data : String) :
    ((n.Insert value data).1).inorder.Perm ((value, data) :: n.inorder) := by
  induction n with
  | nil => exact absurd rfl hn
  | node v d l r ihl ihr =>
    rw [Node.keys_node] at hv
    simp only [List.mem_append, List.mem_cons, not_or] at hv
    obtain ⟨hvl, hvv, hvr⟩ := hv
    simp only [Node.Insert]
    rcases lt_trichotomy value v with hlt | heq | hgt
    · rw [if_neg hvv, if_pos hlt]
      by_cases h3 : l = Node.nil
      · rw [if_pos h3]
        subst h3
        simp [Node.inorder_node, Node.inorder]
      · rw [if_neg h3]
        have hstep := (ihl h3 hvl).append_right ((v, d) :: r.inorder)
        simp only [Node.inorder_node]
        rwa [List.cons_append] at hstep
    · exact absurd heq hvv
    · rw [if_neg hvv, if_neg (asymm hgt)]
      by_cases h4 : r = Node.nil
      · rw [if_pos h4]
        subst h4
        simp only [Node.inorder_node, Node.inorder, List.append_nil]
        have hmid := @List.perm_middle (String × String) (value, data) (l.inorder ++ [(v, d)]) []
        simpa using hmid
      · rw [if_neg h4]
        have hstep : (l.inorder ++ (v, d) :: ((r.Insert value data).1).inorder).Perm
            (l.inorder ++ (v, d) :: ((value, data) :: r.inorder)) :=
          List.Perm.append_left _ ((ihr h4 hvr).cons (v, d))
        simp only [Node.inorder_node]
        refine hstep.trans ?_
        have hmid := @List.perm_middle (String × String) (value, data) (l.inorder ++ [(v, d)])
          r.inorder
        simpa using hmid

theorem Node.Insert_mem_keys {n : Node} (hn : n ≠ Node.nil) (value data : String) :
    value ∈ ((n.Insert value data).1).keys := by
  induction n with
  | nil => exact absurd rfl hn
  | node v d l r ihl ihr =>
    simp only [Node.Insert]
    split_ifs with h1 h2 h3 h4
    · subst h1
      rw [Node.keys_node]
      simp
    · simp [Node.keys_node, Node.keys, Node.inorder]
    · rw [Node.keys_node]
      simp only [List.mem_append]
      exact Or.inl (ihl h3)
    · simp [Node.keys_node, Node.keys, Node.inorder]
    · rw [Node.keys_node]
      simp only [List.mem_append, List.mem_cons]
      exact Or.inr (Or.inr (ihr h4))

/-! Lemmas about findMax, removeMax and Delete. -/

theorem Node.findMax_shape {n : Node} (hn : n ≠ Node.nil) (p : Node) :
    (n.findMax p).1 ≠ Node.nil ∧ ((n.findMax p).1).Right = Node.nil := by
  induction n generalizing p with
  | nil => exact absurd rfl hn
  | node v d l r ihl ihr =>
    simp only [Node.findMax]
    by_cases h : r = Node.nil
    · rw [if_pos h]
      exact ⟨by simp, by simp [Node.Right, h]⟩
    · rw [if_neg h]
      exact ihr h _

theorem Node.inorder_removeMax {n : Node} (hn : n ≠ Node.nil) (p : Node) :
    n.inorder = n.removeMax.inorder ++ [(((n.findMax p).1).Value, ((n.findMax p).1).Data)] := by
  induction n generalizing p with
  | nil => exact absurd rfl hn
  | node v d l r ihl ihr =>
    simp only [Node.findMax, Node.removeMax]
    by_cases h : r = Node.nil
    · rw [if_pos h, if_pos h]
      subst h
      simp [Node.inorder_node, Node.inorder, Node.Value, Node.Data]
    · rw [if_neg h, if_neg h]
      rw [Node.inorder_node, Node.inorder_node, ihr h (Node.node v d l r)]
      simp

theorem Node.removeMax_subset {n : Node} {p : String × String}
    (hp : p ∈ n.removeMax.inorder) : p ∈ n.inorder := by
  cases n with
  | nil => simp [Node.removeMax, Node.inorder] at hp
  | node v d l r =>
    rw [Node.inorder_removeMax (by simp) Node.nil]
    exact List.mem_append_left _ hp

theorem Node.removeMax_isBSTb {n : Node} (h : n.isBSTb = true) :
    n.removeMax.isBSTb = true := by
  induction n with
  | nil => rfl
  | node v d l r ihl ihr =>
    rw [Node.isBSTb_node] at h
    obtain ⟨hlv, hvr, hbl, hbr⟩ := h
    simp only [Node.removeMax]
    by_cases hr : r = Node.nil
    · rw [if_pos hr]
      exact hbl
    · rw [if_neg hr]
      refine Node.isBSTb_node.mpr ⟨hlv, ?_, hbl, ihr hbr⟩
      intro p hp
      exact hvr p (Node.removeMax_subset hp)

theorem Node.findMax_mem {n : Node} (hn : n ≠ Node.nil) (p : Node) :
    (((n.findMax p).1).Value, ((n.findMax p).1).Data) ∈ n.inorder := by
  rw [Node.inorder_removeMax hn p]
  exact List.mem_append_right _ (List.mem_singleton.mpr rfl)

theorem Node.removeMax_lt_findMax {n : Node} (hn : n ≠ Node.nil) (h : n.isBSTb = true)
    (p : Node) : ∀ q ∈ n.removeMax.inorder, q.1 < ((n.findMax p).1).Value := by
  intro q hq
  have hpw := Node.pairwise_inorder h
  rw [Node.inorder_removeMax hn p] at hpw
  exact (List.pairwise_append.mp hpw).2.2 q hq _ (List.mem_singleton.mpr rfl)

theorem Node.Delete_err (n : Node) (s : String) :
    (n.Delete s).2 = none ∨
      ((n.Delete s).2 = some "Value to be deleted does not exist in the tree" ∧
        (n.Delete s).1 = n) := by
  induction n with
  | nil => exact Or.inr ⟨rfl, rfl⟩
  | node v d l r ihl ihr =>
    simp only [Node.Delete]
    by_cases h1 : s < v
    · rw [if_pos h1]
      rcases ihl with h | ⟨h, h2⟩
      · exact Or.inl h
      · refine Or.inr ⟨h, ?_⟩
        show Node.node v d ((l.Delete s).1) r = Node.node v d l r
        rw [h2]
    · rw [if_neg h1]
      by_cases h2 : v < s
      · rw [if_pos h2]
        rcases ihr with h | ⟨h, h3⟩
        · exact Or.inl h
        · refine Or.inr ⟨h, ?_⟩
          show Node.node v d l ((r.Delete s).1) = Node.node v d l r
          rw [h3]
      · rw [if_neg h2]
        by_cases h3 : l = Node.nil ∧ r = Node.nil
        · rw [if_pos h3]
          exact Or.inl rfl
        · rw [if_neg h3]
          by_cases h4 : l = Node.nil
          · rw [if_pos h4]
            exact Or.inl rfl
          · rw [if_neg h4]
            by_cases h5 : r = Node.nil
            · rw [if_pos h5]
              exact Or.inl rfl
            · rw [if_neg h5]
              exact Or.inl rfl

theorem Node.Delete_not_mem {n : Node} {s : String} (h : n.isBSTb = true) (hs : s ∉ n.keys) :
    n.Delete s = (n, some "Value to be deleted does not exist in the tree") := by
  induction n with
  | nil => rfl
  | node v d l r ihl ihr =>
    rw [Node.isBSTb_node] at h
    obtain ⟨hlv, hvr, hbl, hbr⟩ := h
    rw [Node.keys_node] at hs
    simp only [List.mem_append, List.mem_cons, not_or] at hs
    obtain ⟨hsl, hsv, hsr⟩ := hs
    simp only [Node.Delete]
    rcases lt_or_gt_of_ne hsv with hlt | hgt
    · rw [if_pos hlt, ihl hbl hsl]
    · rw [if_neg (asymm hgt), if_pos hgt, ihr hbr hsr]

theorem Node.Delete_subset {n : Node} {s : String} {p : String × String}
    (hp : p ∈ ((n.Delete s).1).inorder) : p ∈ n.inorder := by
  induction n with
  | nil => simp [Node.Delete, Node.inorder] at hp
  | node v d l r ihl ihr =>
    simp only [Node.Delete] at hp
    by_cases h1 : s < v
    · rw [if_pos h1] at hp
      simp only [Node.inorder_node, List.mem_append, List.mem_cons] at hp ⊢
      rcases hp with hp | hp | hp
      · exact Or.inl (ihl hp)
      · tauto
      · tauto
    · rw [if_neg h1] at hp
      by_cases h2 : v < s
      · rw [if_pos h2] at hp
        simp only [Node.inorder_node, List.mem_append, List.mem_cons] at hp ⊢
        rcases hp with hp | hp | hp
        · tauto
        · tauto
        · exact Or.inr (Or.inr (ihr hp))
      · rw [if_neg h2] at hp
        by_cases h3 : l = Node.nil ∧ r = Node.nil
        · rw [if_pos h3] at hp
          simp [Node.inorder] at hp
        · rw [if_neg h3] at hp
          by_cases h4 : l = Node.nil
          · rw [if_pos h4] at hp
            simp only [Node.inorder_node, List.mem_append, List.mem_cons]
            tauto
          · rw [if_neg h4] at hp
            by_cases h5 : r = Node.nil
            · rw [if_pos h5] at hp
              simp only [Node.inorder_node, List.mem_append, List.mem_cons]
              tauto
            · rw [if_neg h5] at hp
              simp only [Node.inorder_node, List.mem_append, List.mem_cons] at hp ⊢
              rcases hp with hp | hp | hp
              · exact Or.inl (Node.removeMax_subset hp)
              · subst hp
                exact Or.inl (Node.findMax_mem h4 (Node.node v d l r))
              · tauto

theorem Node.Delete_isBSTb {n : Node} (h : n.isBSTb = true) (s : String) :
    ((n.Delete s).1).isBSTb = true := by
  induction n with
  | nil => rfl
  | node v d l r ihl ihr =>
    rw [Node.isBSTb_node] at h
    obtain ⟨hlv, hvr, hbl, hbr⟩ := h
    simp only [Node.Delete]
    by_cases h1 : s < v
    · rw [if_pos h1]
      refine Node.isBSTb_node.mpr ⟨?_, hvr, ihl hbl, hbr⟩
      intro p hp
      exact hlv p (Node.Delete_subset hp)
    · rw [if_neg h1]
      by_cases h2 : v < s
      · rw [if_pos h2]
        refine Node.isBSTb_node.mpr ⟨hlv, ?_, hbl, ihr hbr⟩
        intro p hp
        exact hvr p (Node.Delete_subset hp)
      · rw [if_neg h2]
        by_cases h3 : l = Node.nil ∧ r = Node.nil
        · rw [if_pos h3]
          rfl
        · rw [if_neg h3]
          by_cases h4 : l = Node.nil
          · rw [if_pos h4]
            exact hbr
          · rw [if_neg h4]
            by_cases h5 : r = Node.nil
            · rw [if_pos h5]
              exact hbl
            · rw [if_neg h5]
              refine Node.isBSTb_node.mpr ⟨?_, ?_, Node.removeMax_isBSTb hbl, hbr⟩
              · intro p hp
                exact Node.removeMax_lt_findMax h4 hbl (Node.node v d l r) p hp
              · intro p hp
                have hlv2 := hlv _ (Node.findMax_mem h4 (Node.node v d l r))
                exact lt_trans hlv2 (hvr p hp)

/-! Tree-level wrappers of the node lemmas, and lemmas about operation
sequences. -/

theorem Tree.Insert_no_error (t : Tree) (value data : String) : (t.Insert value data).2 = none := by
  obtain ⟨root⟩ := t
  cases root with
  | nil => rfl
  | node v d l r => exact Node.Insert_snd (by simp) value data

theorem Tree.Insert_preserves_isBSTb {t : Tree} (h : t.Root.isBSTb = true) (value data : String) :
    (((t.Insert value data).1).Root).isBSTb = true := by
  obtain ⟨root⟩ := t
  cases root with
  | nil => simp [Tree.Insert, Node.isBSTb, Node.inorder]
  | node v d l r => exact Node.Insert_isBSTb h value data

theorem Tree.Insert_inorder_perm {t : Tree} {value : String} (hv : value ∉ t.Root.keys)
    (data : String) :
    (((t.Insert value data).1).Root).inorder.Perm ((value, data) :: t.Root.inorder) := by
  obtain ⟨root⟩ := t
  cases root with
  | nil => simp [Tree.Insert, Node.inorder]
  | node v d l r => exact Node.Insert_perm (by simp) hv data

theorem Tree.Insert_duplicate_noop {t : Tree} {value : String} (h : t.Root.isBSTb = true)
    (hv : value ∈ t.Root.keys) (data : String) : t.Insert value data = (t, none) := by
  obtain ⟨root⟩ := t
  cases root with
  | nil => simp [Node.keys, Node.inorder] at hv
  | node v d l r => simp [Tree.Insert, Node.Insert_noop h hv data]

theorem Tree.Insert_key_mem (t : Tree) (value data : String) :
    value ∈ (((t.Insert value data).1).Root).keys := by
  obtain ⟨root⟩ := t
  cases root with
  | nil => simp [Tree.Insert, Node.keys, Node.inorder]
  | node v d l r => exact Node.Insert_mem_keys (by simp) value data

theorem Tree.Delete_preserves_isBSTb {t : Tree} (h : t.Root.isBSTb = true) (s : String) :
    (((t.Delete s).1).Root).isBSTb = true := by
  obtain ⟨root⟩ := t
  cases root with
  | nil => exact h
  | node v d l r =>
    rcases hdel : Node.Delete (Node.node v d l r) s with ⟨n2, err⟩
    simp only [Tree.Delete, hdel]
    cases err with
    | some e => exact h
    | none =>
      by_cases hnil : n2 = Node.nil
      · rw [if_pos hnil]
        rfl
      · rw [if_neg hnil]
        by_cases hsp : s = v ∧ (l = Node.nil ∨ r = Node.nil)
        · rw [if_pos hsp]
          exact h
        · rw [if_neg hsp]
          have hd := Node.Delete_isBSTb h s
          rw [hdel] at hd
          exact hd

theorem Tree.Delete_error_unchanged (t : Tree) (s : String) (h : (t.Delete s).2 ≠ none) :
    (t.Delete s).1 = t := by
  obtain ⟨root⟩ := t
  cases root with
  | nil => rfl
  | node v d l r =>
    rcases hdel : Node.Delete (Node.node v d l r) s with ⟨n2, err⟩
    simp only [Tree.Delete, hdel] at h ⊢
    cases err with
    | some e => rfl
    | none =>
      exfalso
      by_cases hnil : n2 = Node.nil
      · rw [if_pos hnil] at h
        exact h rfl
      · rw [if_neg hnil] at h
        by_cases hsp : s = v ∧ (l = Node.nil ∨ r = Node.nil)
        · rw [if_pos hsp] at h
          exact h rfl
        · rw [if_neg hsp] at h
          exact h rfl

theorem Tree.Delete_snd (t : Tree) (s : String) :
    (t.Delete s).2 = none ∨ (t.Delete s).2 = some "Cannot delete from an empty tree" ∨
      (t.Delete s).2 = some "Value to be deleted does not exist in the tree" := by
  obtain ⟨root⟩ := t
  cases root with
  | nil => exact Or.inr (Or.inl rfl)
  | node v d l r =>
    rcases hdel : Node.Delete (Node.node v d l r) s with ⟨n2, err⟩
    have herr := Node.Delete_err (Node.node v d l r) s
    rw [hdel] at herr
    simp only [Tree.Delete, hdel]
    cases err with
    | none =>
      left
      split_ifs <;> rfl
    | some e =>
      rcases herr with h0 | ⟨h0, h1⟩
      · simp at h0
      · exact Or.inr (Or.inr h0)

theorem Tree.Delete_absent_key {t : Tree} {s : String} (hroot : t.Root ≠ Node.nil)
    (h : t.Root.isBSTb = true) (hs : s ∉ t.Root.keys) :
    t.Delete s = (t, some "Value to be deleted does not exist in the tree") := by
  obtain ⟨root⟩ := t
  cases root with
  | nil => exact absurd rfl hroot
  | node v d l r => simp [Tree.Delete, Node.Delete_not_mem h hs]

theorem Tree.applyOp_isBSTb {t : Tree} (h : t.Root.isBSTb = true) (op : Op) :
    ((t.applyOp op).Root).isBSTb = true := by
  cases op with
  | insert v d => exact Tree.Insert_preserves_isBSTb h v d
  | delete s => exact Tree.Delete_preserves_isBSTb h s

theorem Tree.runOps_isBSTb (ops : List Op) :
    ∀ t : Tree, t.Root.isBSTb = true → (((t.runOps ops)).Root).isBSTb = true := by
  induction ops with
  | nil => exact fun t h => h
  | cons op rest ih =>
    intro t h
    exact ih (t.applyOp op) (Tree.applyOp_isBSTb h op)

theorem Tree.foldl_insert_perm (l : List (String × String)) :
    ∀ t : Tree, (∀ k ∈ l.map Prod.fst, k ∉ t.Root.keys) → (l.map Prod.fst).Nodup →
      ((l.foldl (fun t2 p => (t2.Insert p.1 p.2).1) t).Root).inorder.Perm
        (t.Root.inorder ++ l) := by
  induction l with
  | nil =>
    intro t _ _
    simp
  | cons p rest ih =>
    obtain ⟨pk, pd⟩ := p
    intro t hdis hnd
    simp only [List.foldl_cons]
    have hp : pk ∉ t.Root.keys := hdis pk (by simp)
    have hperm := Tree.Insert_inorder_perm hp pd
    have hkeys : ((((t.Insert pk pd).1).Root).keys).Perm (pk :: t.Root.keys) := by
      have hmap := hperm.map Prod.fst
      simpa [Node.keys] using hmap
    have hdis2 : ∀ k ∈ rest.map Prod.fst, k ∉ (((t.Insert pk pd).1).Root).keys := by
      intro k hk hmem
      rcases List.mem_cons.mp (hkeys.mem_iff.mp hmem) with rfl | hk3
      · simp only [List.map_cons, List.nodup_cons] at hnd
        exact hnd.1 hk
      · exact hdis k (by simp [hk]) hk3
    have hnd2 : (rest.map Prod.fst).Nodup := by
      simp only [List.map_cons, List.nodup_cons] at hnd
      exact hnd.2
    refine (ih ((t.Insert pk pd).1) hdis2 hnd2).trans ?_
    refine ((hperm.append_right rest).trans ?_)
    rw [List.cons_append]
    exact List.perm_middle.symm

theorem buildTree_perm {l : List (String × String)} (hnd : (l.map Prod.fst).Nodup) :
    (((buildTree l).Root).inorder).Perm l := by
  have h := Tree.foldl_insert_perm l emptyTree
    (by simp [emptyTree, Node.keys, Node.inorder]) hnd
  simpa [buildTree, emptyTree, Node.inorder] using h

theorem buildTree_isBSTb (l : List (String × String)) :
    (((buildTree l).Root)).isBSTb = true := by
  have haux : ∀ t : Tree, t.Root.isBSTb = true →
      (((l.foldl (fun t2 p => (t2.Insert p.1 p.2).1) t).Root)).isBSTb = true := by
    induction l with
    | nil => exact fun t h => h
    | cons p rest ih =>
      intro t h
      simp only [List.foldl_cons]
      exact ih ((t.Insert p.1 p.2).1) (Tree.Insert_preserves_isBSTb h p.1 p.2)
  exact haux emptyTree rfl

theorem Node.Delete_found_no_right {m : Node} (hm : m ≠ Node.nil) (hr : m.Right = Node.nil) :
    m.Delete m.Value = (m.Left, none) := by
  cases m with
  | nil => exact absurd rfl hm
  | node v d l r =>
    simp only [Node.Right] at hr
    subst hr
    cases l with
    | nil => simp [Node.Delete, Node.Value, Node.Left]
    | node lv ld ll lr => simp [Node.Delete, Node.Value, Node.Left]

/-! The claims. -/

/-- C1: for every sequence of Insert and Delete operations applied to the
initially empty tree (a failed operation returns the tree unchanged, so the
runs with only successful deletes are covered), the resulting tree satisfies
the BST ordering invariant, and an in-order Traverse of it yields a strictly
ascending sequence of keys. -/
theorem claim1_invariant_preservation (ops : List Op) :
    ((Tree.runOps emptyTree ops).Root).isBSTb = true ∧
    List.Chain' (fun a b => a < b)
      (((Tree.runOps emptyTree ops).Traverse
        (Tree.runOps emptyTree ops).Root).map Prod.fst) := by
  have hbst := Tree.runOps_isBSTb ops emptyTree rfl
  refine ⟨hbst, ?_⟩
  rw [Tree.Traverse_eq_inorder, List.chain'_map]
  haveI : IsTrans (String × String) (fun p q => p.1 < q.1) :=
    ⟨fun a b c h1 h2 => lt_trans h1 h2⟩
  exact List.chain'_iff_pairwise.mpr (Node.pairwise_inorder hbst)

/-- C2: Tree.Delete handles a leaf root and a two-children root, but NOT a
root with exactly one child: there the deletion is reported as a success
while the tree is left completely unchanged, because only the transient fake
parent was rewritten and the code reconciles the root pointer only when the
fake parent lost its right child.  Evaluated below: deleting "a" from the
tree with root "a" and sole child "b" returns no error and the identical
tree, so the sole child does not become the new root. -/
theorem claim2_delete_root_cases :
    Tree.Delete ⟨Node.node "a" "alpha" Node.nil Node.nil⟩ "a" = (⟨Node.nil⟩, none) ∧
    Tree.Delete ⟨Node.node "b" "b" (Node.node "a" "a" Node.nil Node.nil)
        (Node.node "c" "c" Node.nil Node.nil)⟩ "b"
      = (⟨Node.node "a" "a" Node.nil (Node.node "c" "c" Node.nil Node.nil)⟩, none) ∧
    Tree.Delete ⟨Node.node "a" "alpha" Node.nil (Node.node "b" "bravo" Node.nil Node.nil)⟩ "a"
      = (⟨Node.node "a" "alpha" Node.nil (Node.node "b" "bravo" Node.nil Node.nil)⟩, none) := by
  refine ⟨by decide, by decide, by decide⟩

/-- C3: at a node with two children, Delete locates the maximum node of the
left subtree with findMax, a node that exists and has no right child, copies
its Value and Data into the deleted node while removing the predecessor from
its original place, and the recursive delete of the predecessor by its own
key lands in the zero- or one-child case, replacing it by its left child
without error; the removal takes exactly the predecessor pair off the end of
the in-order sequence of the left subtree. -/
theorem claim3_two_children_predecessor (v d : String) (l r : Node)
    (hl : l ≠ Node.nil) (hr : r ≠ Node.nil) :
    (l.findMax (Node.node v d l r)).1 ≠ Node.nil ∧
    ((l.findMax (Node.node v d l r)).1).Right = Node.nil ∧
    Node.Delete (Node.node v d l r) v =
      (Node.node ((l.findMax (Node.node v d l r)).1).Value
        ((l.findMax (Node.node v d l r)).1).Data l.removeMax r, none) ∧
    Node.Delete (l.findMax (Node.node v d l r)).1 ((l.findMax (Node.node v d l r)).1).Value
      = (((l.findMax (Node.node v d l r)).1).Left, none) ∧
    l.inorder = l.removeMax.inorder ++
      [(((l.findMax (Node.node v d l r)).1).Value,
        ((l.findMax (Node.node v d l r)).1).Data)] := by
  obtain ⟨hne, hright⟩ := Node.findMax_shape hl (Node.node v d l r)
  refine ⟨hne, hright, ?_, Node.Delete_found_no_right hne hright,
    Node.inorder_removeMax hl _⟩
  simp only [Node.Delete, if_neg (lt_irrefl v),
    if_neg (fun hc : l = Node.nil ∧ r = Node.nil => hl hc.1), if_neg hl, if_neg hr]

/-- Witness for C3: the two-children node with value "c", left subtree
holding "a" and "b", right child "d"; the predecessor "b" is copied up. -/
theorem claim3_witness :
    Node.Delete (Node.node "c" "q"
        (Node.node "a" "x" Node.nil (Node.node "b" "y" Node.nil Node.nil))
        (Node.node "d" "z" Node.nil Node.nil)) "c"
      = (Node.node "b" "y" (Node.node "a" "x" Node.nil Node.nil)
          (Node.node "d" "z" Node.nil Node.nil), none) := by
  have h := claim3_two_children_predecessor "c" "q"
    (Node.node "a" "x" Node.nil (Node.node "b" "y" Node.nil Node.nil))
    (Node.node "d" "z" Node.nil Node.nil) (by decide) (by decide)
  exact h.2.2.1.trans (by decide)

/-- C4: replaceNode rewrites exactly the child pointer of the parent that
points at n: when n is the left child only the left pointer is rewritten and
the right pointer is untouched, and when n is not the left child only the
right pointer is rewritten; no error is returned for a present n. -/
theorem claim4_replaceNode_frame (pv pd : String) (pl pr n replacement : Node)
    (hn : n ≠ Node.nil) :
    (n = pl → Node.replaceNode n (Node.node pv pd pl pr) replacement
        = (Node.node pv pd replacement pr, none)) ∧
    (n ≠ pl → Node.replaceNode n (Node.node pv pd pl pr) replacement
        = (Node.node pv pd pl replacement, none)) := by
  cases n with
  | nil => exact absurd rfl hn
  | node a b c e =>
    constructor
    · intro h
      simp only [Node.replaceNode, if_pos h]
    · intro h
      simp only [Node.replaceNode, if_neg h]

/-- Witness for C4: replacing the left child "a" of parent "p" by an absent
node rewrites the left pointer only; the right child "c" is untouched. -/
theorem claim4_witness :
    Node.replaceNode (Node.node "a" "a" Node.nil Node.nil)
        (Node.node "p" "p" (Node.node "a" "a" Node.nil Node.nil)
          (Node.node "c" "c" Node.nil Node.nil)) Node.nil
      = (Node.node "p" "p" Node.nil (Node.node "c" "c" Node.nil Node.nil), none) :=
  (claim4_replaceNode_frame "p" "p" (Node.node "a" "a" Node.nil Node.nil)
    (Node.node "c" "c" Node.nil Node.nil) (Node.node "a" "a" Node.nil Node.nil)
    Node.nil (by decide)).1 rfl

/-- C5: Tree.Delete on the empty tree returns the EmptyTree error with the
tree unchanged; Tree.Delete on a non-empty tree for an absent key returns
the NotFound error with the tree unchanged; Find on an absent key is the
ordinary not-found result, not an error. -/
theorem claim5_error_reporting (t : Tree) (s k : String) (hroot : t.Root ≠ Node.nil)
    (hbst : t.Root.isBSTb = true) (hk : k ∉ t.Root.keys) :
    Tree.Delete emptyTree s = (emptyTree, some "Cannot delete from an empty tree") ∧
    t.Delete k = (t, some "Value to be deleted does not exist in the tree") ∧
    t.Find k = ("", false) := by
  refine ⟨rfl, Tree.Delete_absent_key hroot hbst hk, ?_⟩
  obtain ⟨root⟩ := t
  cases root with
  | nil => rfl
  | node v d l r => exact Node.Find_not_mem hbst hk

/-- Witness for C5: deleting and finding the absent key "a" in the
single-node tree "b". -/
theorem claim5_witness :
    Tree.Delete emptyTree "x" = (emptyTree, some "Cannot delete from an empty tree") ∧
    Tree.Delete ⟨Node.node "b" "beta" Node.nil Node.nil⟩ "a"
      = (⟨Node.node "b" "beta" Node.nil Node.nil⟩,
          some "Value to be deleted does not exist in the tree") ∧
    Tree.Find ⟨Node.node "b" "beta" Node.nil Node.nil⟩ "a" = ("", false) :=
  claim5_error_reporting ⟨Node.node "b" "beta" Node.nil Node.nil⟩ "x" "a"
    (by decide) (by decide) (by decide)

/-- C6: operations on a tree satisfying the invariant never leave a partial
state: Insert reports no error and preserves the invariant, the tree after
Delete satisfies the invariant whether Delete succeeded or failed, a failed
Delete returns the tree exactly as it was (at the Tree level and at the Node
level), and the recursive sub-delete of the findMax predecessor in the
two-children path never returns an error. -/
theorem claim6_no_partial_failure (t : Tree) (s value data : String)
    (hbst : t.Root.isBSTb = true) :
    ((t.Insert value data).2 = none ∧ (((t.Insert value data).1).Root).isBSTb = true) ∧
    (((t.Delete s).1).Root).isBSTb = true ∧
    ((t.Delete s).2 ≠ none → (t.Delete s).1 = t) ∧
    (∀ m : Node, (m.Delete s).2 ≠ none → (m.Delete s).1 = m) ∧
    (∀ l : Node, l ≠ Node.nil → ∀ p : Node,
      (Node.Delete ((l.findMax p).1) (((l.findMax p).1).Value)).2 = none) := by
  refine ⟨⟨Tree.Insert_no_error t value data, Tree.Insert_preserves_isBSTb hbst value data⟩,
    Tree.Delete_preserves_isBSTb hbst s, Tree.Delete_error_unchanged t s, ?_, ?_⟩
  · intro m hm
    rcases Node.Delete_err m s with h | ⟨h, h2⟩
    · exact absurd h hm
    · exact h2
  · intro l hl p
    obtain ⟨hne, hright⟩ := Node.findMax_shape hl p
    rw [Node.Delete_found_no_right hne hright]

/-- Witness for C6 on the single-node tree "b" with Insert of "a" and Delete
of "b", and the predecessor sub-delete on the leaf "a". -/
theorem claim6_witness :
    (Tree.Insert ⟨Node.node "b" "beta" Node.nil Node.nil⟩ "a" "x").2 = none ∧
    (((Tree.Delete ⟨Node.node "b" "beta" Node.nil Node.nil⟩ "b").1).Root).isBSTb = true ∧
    (Node.Delete (((Node.node "a" "a" Node.nil Node.nil).findMax Node.nil).1)
        ((((Node.node "a" "a" Node.nil Node.nil).findMax Node.nil).1).Value)).2 = none := by
  have h := claim6_no_partial_failure ⟨Node.node "b" "beta" Node.nil Node.nil⟩ "b" "a" "x"
    (by decide)
  exact ⟨h.1.1, h.2.1, h.2.2.2.2 (Node.node "a" "a" Node.nil Node.nil) (by decide) Node.nil⟩

/-- C7: inserting a key that is already in the tree is a successful no-op:
no error, the tree (hence its key set and the stored payload) is unchanged
even for a different new payload, and inserting the same key twice gives the
same tree as inserting it once. -/
theorem claim7_insert_idempotent (t : Tree) (k d d2 : String)
    (hbst : t.Root.isBSTb = true) :
    (k ∈ t.Root.keys → t.Insert k d2 = (t, none)) ∧
    ((t.Insert k d).1).Insert k d2 = ((t.Insert k d).1, none) := by
  refine ⟨fun hk => Tree.Insert_duplicate_noop hbst hk d2, ?_⟩
  exact Tree.Insert_duplicate_noop (Tree.Insert_preserves_isBSTb hbst k d) (Tree.Insert_key_mem t k d) d2

/-- Witness for C7: inserting "a" into the empty tree and then inserting "a"
again with a different payload returns the first tree with no error. -/
theorem claim7_witness :
    ((Tree.Insert emptyTree "a" "x").1).Insert "a" "y"
      = ((Tree.Insert emptyTree "a" "x").1, none) :=
  (claim7_insert_idempotent emptyTree "a" "x" "y" (by decide)).2

/-- C8: the delete-then-find property fails on the code: deleting the key
"a" at a root with exactly one child returns success, yet Find still returns
the payload of "a" with found=true and the in-order traversal still contains
the deleted key, with no occurrence removed. -/
theorem claim8_delete_then_find_bug :
    (Tree.Delete ⟨Node.node "a" "alpha" Node.nil
        (Node.node "b" "bravo" Node.nil Node.nil)⟩ "a").2 = none ∧
    ((Tree.Delete ⟨Node.node "a" "alpha" Node.nil
        (Node.node "b" "bravo" Node.nil Node.nil)⟩ "a").1).Find "a" = ("alpha", true) ∧
    ((Tree.Delete ⟨Node.node "a" "alpha" Node.nil
        (Node.node "b" "bravo" Node.nil Node.nil)⟩ "a").1).Traverse
        (((Tree.Delete ⟨Node.node "a" "alpha" Node.nil
          (Node.node "b" "bravo" Node.nil Node.nil)⟩ "a").1).Root)
      = [("a", "alpha"), ("b", "bravo")] := by
  refine ⟨by decide, by decide, by decide⟩

/-- C9: the defensive InvalidOperation errors are unreachable through the
public API: Tree.Insert never returns an error on any tree, Node.Insert on a
present node never returns an error, replaceNode on a present node never
returns an error, and Tree.Delete only ever returns the EmptyTree or
NotFound error. -/
theorem claim9_invalid_operation_unreachable (t : Tree) (value data s : String)
    (n parent replacement : Node) (hn : n ≠ Node.nil) :
    (t.Insert value data).2 = none ∧
    (n.Insert value data).2 = none ∧
    (n.replaceNode parent replacement).2 = none ∧
    ((t.Delete s).2 = none ∨ (t.Delete s).2 = some "Cannot delete from an empty tree" ∨
      (t.Delete s).2 = some "Value to be deleted does not exist in the tree") := by
  refine ⟨Tree.Insert_no_error t value data, Node.Insert_snd hn value data, ?_,
    Tree.Delete_snd t s⟩
  cases n with
  | nil => exact absurd rfl hn
  | node a b c e =>
    cases parent with
    | nil => rfl
    | node pv pd pl pr =>
      show (if Node.node a b c e = pl then (Node.node pv pd replacement pr, none)
          else (Node.node pv pd pl replacement, (none : Option String))).2 = none
      by_cases h : Node.node a b c e = pl
      · rw [if_pos h]
      · rw [if_neg h]

/-- Witness for C9 at the empty tree, a concrete leaf node and a concrete
parent. -/
theorem claim9_witness :
    (Tree.Insert emptyTree "a" "x").2 = none ∧
    (Node.Insert (Node.node "a" "a" Node.nil Node.nil) "a" "x").2 = none ∧
    (Node.replaceNode (Node.node "a" "a" Node.nil Node.nil)
        (Node.node "p" "p" Node.nil Node.nil) Node.nil).2 = none ∧
    ((Tree.Delete emptyTree "y").2 = none ∨
      (Tree.Delete emptyTree "y").2 = some "Cannot delete from an empty tree" ∨
      (Tree.Delete emptyTree "y").2 = some "Value to be deleted does not exist in the tree") :=
  claim9_invalid_operation_unreachable emptyTree "a" "x" "y"
    (Node.node "a" "a" Node.nil Node.nil) (Node.node "p" "p" Node.nil Node.nil)
    Node.nil (by decide)

/-- C10: insertion order does not matter: building trees from two orderings
of the same pairs with pairwise distinct keys yields identical in-order
Traverse results. -/
theorem claim10_insert_order_independence (l1 l2 : List (String × String))
    (hnd : (l1.map Prod.fst).Nodup) (hp : l1.Perm l2) :
    (buildTree l1).Traverse (buildTree l1).Root
      = (buildTree l2).Traverse (buildTree l2).Root := by
  rw [Tree.Traverse_eq_inorder, Tree.Traverse_eq_inorder]
  have hnd2 : (l2.map Prod.fst).Nodup := ((hp.map Prod.fst).nodup_iff).mp hnd
  have hperm : ((((buildTree l1).Root).inorder)).Perm (((buildTree l2).Root).inorder) :=
    ((buildTree_perm hnd).trans hp).trans (buildTree_perm hnd2).symm
  haveI : IsAntisymm (String × String) (fun p q => p.1 < q.1) :=
    ⟨fun a b h1 h2 => absurd (lt_trans h1 h2) (lt_irrefl a.1)⟩
  exact List.eq_of_perm_of_sorted hperm
    (Node.pairwise_inorder (buildTree_isBSTb l1))
    (Node.pairwise_inorder (buildTree_isBSTb l2))

/-- Witness for C10: the two orders of inserting "a" and "b" produce the
same traversal. -/
theorem claim10_witness :
    (buildTree [("b", "1"), ("a", "2")]).Traverse (buildTree [("b", "1"), ("a", "2")]).Root
      = (buildTree [("a", "2"), ("b", "1")]).Traverse
          (buildTree [("a", "2"), ("b", "1")]).Root :=
  claim10_insert_order_independence [("b", "1"), ("a", "2")] [("a", "2"), ("b", "1")]
    (by decide) (by decide)

end Bintree
